import Mathlib

/-!
Verification of the i18n-fixer string classification engine and key
lifecycle manager (`src/index.js`) against its specification.

Strings are modelled as `List Char`.  JavaScript string primitives used by
the source are embedded for the ASCII range, which covers every character
class the source manipulates (`[a-z0-9]`, `\s`, `_`, `.`): `toLowerCase`
is ASCII lower-casing, `\s` is the ASCII whitespace class, and
`charCodeAt` is `Char.toNat` (identical on the BMP subset we use).
-/

namespace I18nFixer

/-- ASCII part of the JavaScript regex class `\s`. -/
def isWsChar (c : Char) : Bool :=
  c = ' ' || c = '\t' || c = '\n' || c = '\r' || c = '\x0b' || c = '\x0c'

/-- ASCII `toLowerCase`, as used on the key-generator input. -/
def lowerChar (c : Char) : Char :=
  if 'A' ≤ c && c ≤ 'Z' then Char.ofNat (c.toNat + 32) else c

def lowerStr (l : List Char) : List Char := l.map lowerChar

def isLowerAlpha (c : Char) : Bool := 'a' ≤ c && c ≤ 'z'

def isUpperAlpha (c : Char) : Bool := 'A' ≤ c && c ≤ 'Z'

def isDigitChar (c : Char) : Bool := '0' ≤ c && c ≤ '9'

/-- JavaScript `String.prototype.trim` (ASCII whitespace). -/
def jsTrim (l : List Char) : List Char :=
  ((l.dropWhile isWsChar).reverse.dropWhile isWsChar).reverse

/-- `replace(/[^a-z0-9\s]/g, "")` from `generateKey`. -/
def keepAllowed (l : List Char) : List Char :=
  l.filter (fun c => isLowerAlpha c || isDigitChar c || isWsChar c)

def collapseWsAux : Bool → List Char → List Char
  | _, [] => []
  | prevWs, c :: cs =>
    if isWsChar c then
      if prevWs then collapseWsAux true cs else ' ' :: collapseWsAux true cs
    else c :: collapseWsAux false cs

/-- `replace(/\s+/g, " ")` from `generateKey`. -/
def collapseWs (l : List Char) : List Char := collapseWsAux false l

/-- `replace(/\s/g, "_")` from `generateKey`. -/
def wsToUnderscore (l : List Char) : List Char :=
  l.map (fun c => if isWsChar c then '_' else c)

/-- `replace(/_+$/, "")` from `generateKey`. -/
def stripTrailingUnderscores (l : List Char) : List Char :=
  (l.reverse.dropWhile (fun c => c = '_')).reverse

/-- The normalization pipeline of `generateKey` (src/index.js:118-132):
lower-case, trim, strip characters outside `[a-z0-9\s]`, collapse
whitespace runs, turn whitespace into `_`, truncate to 40, strip
trailing underscores. -/
def normalizeKey (v : List Char) : List Char :=
  stripTrailingUnderscores
    (List.take 40 (wsToUnderscore (collapseWs (keepAllowed (jsTrim (lowerStr v))))))

/-- Signed 32-bit wrap-around, the effect of JavaScript `x & x` and of
`<< 5` on an int32 operand. -/
def int32 (n : Int) : Int := (n + 2147483648) % 4294967296 - 2147483648

/-- One iteration of `simpleHash` (src/index.js:145-153):
`hash = ((hash << 5) - hash) + char; hash = hash & hash`. -/
def hashStep (h : Int) (c : Char) : Int := int32 (int32 (h * 32) - h + c.toNat)

def simpleHashInt (v : List Char) : Int := v.foldl hashStep 0

/-- Digit characters used by JavaScript `Number.prototype.toString(36)`. -/
def digit36 (d : Nat) : Char :=
  if d < 10 then Char.ofNat (48 + d) else Char.ofNat (87 + d)

def base36Aux : Nat → Nat → List Char
  | 0, _ => []
  | fuel + 1, n => if n = 0 then [] else base36Aux fuel (n / 36) ++ [digit36 (n % 36)]

/-- `Math.abs(hash).toString(36)` for a natural number. -/
def natToBase36 (n : Nat) : List Char := if n = 0 then ['0'] else base36Aux n n

/-- `simpleHash` (src/index.js:145-153) followed by the `.substring(0, 8)`
applied at its call site. -/
def simpleHash (v : List Char) : List Char :=
  List.take 8 (natToBase36 (simpleHashInt v).natAbs)

/-- `generateKey` (src/index.js:118-140): the normalization pipeline with
the `text_` + hash fallback when the normalized form is shorter than 2. -/
def generateKey (v : List Char) : List Char :=
  let key := normalizeKey v
  if key.length < 2 then "text_".toList ++ simpleHash v else key

/-- Modelled from the spec: the fallback key of §4.2, a fixed prefix plus
the base-36 encoded 32-bit rolling hash truncated to 8 characters. -/
def specFallbackKey (v : List Char) : List Char := "text_".toList ++ simpleHash v

/-- Modelled from the spec: the §4.2 normalization read as a chain of
character replacements (no initial trim is mentioned): lower-case, strip
everything except letters/digits/spaces, collapse repeated spaces, replace
the remaining spaces by underscores, truncate to 40, strip trailing
underscores. -/
def specNormalizeReplace (v : List Char) : List Char :=
  stripTrailingUnderscores
    (List.take 40 (wsToUnderscore (collapseWs (keepAllowed (lowerStr v)))))

def wordsAux : List Char → List Char → List (List Char)
  | [], acc => if acc = [] then [] else [acc.reverse]
  | c :: cs, acc =>
    if isWsChar c then
      if acc = [] then wordsAux cs [] else acc.reverse :: wordsAux cs []
    else wordsAux cs (c :: acc)

/-- Split into whitespace-separated words, dropping empty words. -/
def wordsOf (l : List Char) : List (List Char) := wordsAux l []

def joinUnderscore : List (List Char) → List Char
  | [] => []
  | [w] => w
  | w :: ws => w ++ '_' :: joinUnderscore ws

/-- Modelled from the spec: the §4.2 normalization read as "join words
with underscores": lower-case, strip everything except
letters/digits/spaces, split into words, join the words with underscores,
truncate to 40, strip trailing underscores. -/
def specNormalizeWords (v : List Char) : List Char :=
  stripTrailingUnderscores
    (List.take 40 (joinUnderscore (wordsOf (keepAllowed (lowerStr v)))))

/-- Modelled from the spec: §4.2 key fragment under the replacement
reading of the normalization. -/
def specGenerateKeyReplace (v : List Char) : List Char :=
  if (specNormalizeReplace v).length < 2 then specFallbackKey v else specNormalizeReplace v

/-- Modelled from the spec: §4.2 key fragment under the word-joining
reading of the normalization. -/
def specGenerateKeyWords (v : List Char) : List Char :=
  if (specNormalizeWords v).length < 2 then specFallbackKey v else specNormalizeWords v

/-! ### String classification: exclusion rules (DEFAULT_CONFIG, src/index.js:61-75)

Each regular expression of `excludeStringPatterns` is embedded as a
decidable predicate over `List Char`. -/

def isAlphaNumChar (c : Char) : Bool := isLowerAlpha c || isUpperAlpha c || isDigitChar c

def isHexDigit (c : Char) : Bool :=
  isDigitChar c || ('a' ≤ c && c ≤ 'f') || ('A' ≤ c && c ≤ 'F')

/-- `/^[a-z][a-zA-Z0-9]*$/` — camelCase identifiers. -/
def patCamel : List Char → Bool
  | [] => false
  | c :: rest => isLowerAlpha c && rest.all isAlphaNumChar

/-- `/^[A-Z_]+$/` — CONSTANT_NAMES. -/
def patConstant (l : List Char) : Bool :=
  !l.isEmpty && l.all (fun c => isUpperAlpha c || c = '_')

/-- `/^#[0-9a-fA-F]{3,8}$/` — color hex codes. -/
def patHexColor : List Char → Bool
  | [] => false
  | c :: rest =>
    c = '#' && rest.all isHexDigit && decide (3 ≤ rest.length) && decide (rest.length ≤ 8)

/-- `/^rgba?\(/i` — RGB/RGBA colors. -/
def patRgb (l : List Char) : Bool :=
  "rgb(".toList.isPrefixOf (lowerStr l) || "rgba(".toList.isPrefixOf (lowerStr l)

/-- `/^https?:\/\//i` — URLs. -/
def patUrl (l : List Char) : Bool :=
  "http://".toList.isPrefixOf (lowerStr l) || "https://".toList.isPrefixOf (lowerStr l)

/-- `/^\.{1,2}\//i` — relative paths. -/
def patRelPath (l : List Char) : Bool :=
  "./".toList.isPrefixOf l || "../".toList.isPrefixOf l

/-- `/^\//i` — absolute paths. -/
def patAbsPath : List Char → Bool
  | c :: _ => c = '/'
  | [] => false

/-- `/^@/i` — package imports. -/
def patAt : List Char → Bool
  | c :: _ => c = '@'
  | [] => false

/-- `/^data:/` — data URIs. -/
def patData (l : List Char) : Bool := "data:".toList.isPrefixOf l

/-- `/^\d+px$/i` — CSS pixel units. -/
def patPx (l : List Char) : Bool :=
  match (lowerStr l).reverse with
  | 'x' :: 'p' :: rest => !rest.isEmpty && rest.all isDigitChar
  | _ => false

/-- `/^\d+%$/i` — percentages. -/
def patPercent (l : List Char) : Bool :=
  match l.reverse with
  | '%' :: rest => !rest.isEmpty && rest.all isDigitChar
  | _ => false

/-- `/^[<>]=?$/i` — comparison operators. -/
def patCompare (l : List Char) : Bool :=
  l = ['<'] || l = ['>'] || l = ['<', '='] || l = ['>', '=']

/-- `/^\s*$/i` — empty or whitespace only. -/
def patWsOnly (l : List Char) : Bool := l.all isWsChar

/-- `excludeStringPatterns.some (pattern => pattern.test value))`. -/
def matchesExcludePattern (l : List Char) : Bool :=
  patCamel l || patConstant l || patHexColor l || patRgb l || patUrl l ||
  patRelPath l || patAbsPath l || patAt l || patData l || patPx l ||
  patPercent l || patCompare l || patWsOnly l

/-! ### "Already internationalized" patterns (DEFAULT_CONFIG, src/index.js:39-47) -/

/-- Unanchored regex test: does `pat` occur as a contiguous substring? -/
def containsSub (pat : List Char) : List Char → Bool
  | [] => pat.isEmpty
  | c :: rest => pat.isPrefixOf (c :: rest) || containsSub pat rest

/-- `i18nPatterns.some (pattern => pattern.test value)`:
`/^t\(/`, `/^i18n\./`, `/translate\(/`, `/^intl\./`, `/formatMessage\(/`,
`/^__\(/`, `/^_\(/`. -/
def matchesI18nPattern (l : List Char) : Bool :=
  "t(".toList.isPrefixOf l || "i18n.".toList.isPrefixOf l ||
  containsSub "translate(".toList l || "intl.".toList.isPrefixOf l ||
  containsSub "formatMessage(".toList l || "__(".toList.isPrefixOf l ||
  "_(".toList.isPrefixOf l

/-- `shouldExcludeString` (src/index.js:202-210).  The `!value` guard makes
the empty string excluded; the length check compares the **trimmed**
length against `minStringLength`; the patterns are tested on the
untrimmed value. -/
def shouldExcludeString (minLen : Nat) (v : List Char) : Bool :=
  if v.isEmpty then true
  else if (jsTrim v).length < minLen then true
  else matchesExcludePattern v

/-- `isI18nString` (src/index.js:192-197). -/
def isI18nString (v : List Char) : Bool :=
  if v.isEmpty then true else matchesI18nPattern v

/-- A `StringOccurrence` as pushed by `addResult` (src/index.js:276-291).
`kind` covers the seven syntactic shapes; `value` is the stored
(trimmed) text. -/
structure StringOccurrence where
  file : List Char
  line : Nat
  column : Nat
  value : List Char
  kind : List Char
  context : List Char
deriving DecidableEq, Repr

/-- `addResult` (src/index.js:276-291): apply `shouldExcludeString` and
`isI18nString` to the candidate text, and on success push a record whose
`value` is the **trimmed** text. -/
def addResult (minLen : Nat) (file : List Char) (line column : Nat)
    (value kind context : List Char) : Option StringOccurrence :=
  if shouldExcludeString minLen value then none
  else if isI18nString value then none
  else some ⟨file, line, column, jsTrim value, kind, context⟩

/-- Modelled from the spec: `addResult` as described by the claim, with the
minimum-length check evaluated against the **untrimmed** text. -/
def specAddResultUntrimmedLen (minLen : Nat) (file : List Char) (line column : Nat)
    (value kind context : List Char) : Option StringOccurrence :=
  if value.isEmpty || decide (value.length < minLen) || matchesExcludePattern value then none
  else if isI18nString value then none
  else some ⟨file, line, column, jsTrim value, kind, context⟩

/-! ### Ancestor-call detector (src/index.js:215-242) -/

/-- The callee of a JavaScript call expression, as inspected by
`isInsideI18nCall`: a direct identifier, a member access (only the
accessed property name matters), or anything else. -/
inductive JsCallee where
  | ident : List Char → JsCallee
  | member : List Char → List Char → JsCallee
  | otherCallee : JsCallee
deriving DecidableEq, Repr

/-- An AST node as classified while walking the parent chain: a call
expression with its callee, or any other (non-call) node. -/
inductive JsNode where
  | callExpr : JsCallee → JsNode
  | otherNode : JsNode
deriving DecidableEq, Repr

/-- `i18nFunctionNames` (DEFAULT_CONFIG, src/index.js:50-58). -/
def i18nFunctionNames : List (List Char) :=
  ["useTranslation".toList, "useIntl".toList, "withTranslation".toList,
   "t".toList, "translate".toList, "__".toList, "_".toList]

/-- The call-expression test inside the `isInsideI18nCall` loop body:
a direct callee identifier in `i18nFunctionNames`, or a member callee
whose property identifier is in `i18nFunctionNames`. -/
def isI18nCallNode : JsNode → Bool
  | .callExpr (.ident name) => i18nFunctionNames.contains name
  | .callExpr (.member _ propName) => i18nFunctionNames.contains propName
  | .callExpr .otherCallee => false
  | .otherNode => false

/-- `isInsideI18nCall` (src/index.js:215-242): walk the chain from the
node itself up through every ancestor (`current = current.parentPath`),
returning true as soon as an enclosing i18n call expression is found. -/
def isInsideI18nCall : List JsNode → Bool
  | [] => false
  | n :: rest => if isI18nCallNode n then true else isInsideI18nCall rest

/-- The emission guard shared by all seven visitor shapes
(src/index.js:321-422): a candidate is handed to `addResult` only when
`isInsideI18nCall` is false on its chain. -/
def classifyCandidate (minLen : Nat) (chain : List JsNode) (file : List Char)
    (line column : Nat) (value kind context : List Char) : Option StringOccurrence :=
  if isInsideI18nCall chain then none
  else addResult minLen file line column value kind context

/-! ### Translation trees

A persisted translation document is a JSON object whose values are
strings or nested objects.  JavaScript objects preserve insertion order,
so an object is an ordered association list, with assignment updating an
existing key in place and appending a fresh key at the end. -/

mutual
inductive JVal where
  | str : List Char → JVal
  | obj : JObj → JVal
deriving DecidableEq, Repr
inductive JObj where
  | nil : JObj
  | cons : List Char → JVal → JObj → JObj
deriving DecidableEq, Repr
end

/-- Property read `o[k]` on a JavaScript object. -/
def lookupKey (k : List Char) : JObj → Option JVal
  | .nil => none
  | .cons k' v rest => if k = k' then some v else lookupKey k rest

/-- Property write `o[k] = v`: update in place, or append a fresh key. -/
def setKey (k : List Char) (v : JVal) : JObj → JObj
  | .nil => .cons k v .nil
  | .cons k' v' rest => if k = k' then .cons k' v rest else .cons k' v' (setKey k v rest)

/-- `String.prototype.split(".")`. -/
def splitDotsAux : List Char → List Char → List (List Char)
  | [], acc => [acc.reverse]
  | c :: cs, acc => if c = '.' then acc.reverse :: splitDotsAux cs [] else splitDotsAux cs (c :: acc)

def splitDots (l : List Char) : List (List Char) := splitDotsAux l []

/-- Join path segments with `.`, the inverse direction of `splitDots`. -/
def joinDots : List (List Char) → List Char
  | [] => []
  | [p] => p
  | p :: q :: ps => p ++ '.' :: joinDots (q :: ps)

/-- Nested insertion as in `generateI18nFile` (src/index.js:697-707):
descend along the path, creating `{}` for missing (or falsy, i.e. empty
string) intermediate values; reaching a **non-empty string** intermediate
value is a strict-mode `TypeError` (property assignment on a primitive),
modelled as `none`.  The final segment is assigned unconditionally. -/
def insertG : List (List Char) → List Char → JObj → Option JObj
  | [], _, o => some o
  | [p], v, o => some (setKey p (.str v) o)
  | p :: q :: rest, v, o =>
    match lookupKey p o with
    | none => (insertG (q :: rest) v .nil).map (fun sub => setKey p (.obj sub) o)
    | some (.str s) =>
      if s.isEmpty then (insertG (q :: rest) v .nil).map (fun sub => setKey p (.obj sub) o)
      else none
    | some (.obj sub) => (insertG (q :: rest) v sub).map (fun sub' => setKey p (.obj sub') o)

/-- The sentinel key of the `_value` preservation rule. -/
def valueSentinel : List Char := "_value".toList

/-- Nested insertion as in `generateComplete` (src/index.js:1183-1196) and
`extractKeysFromCode` (src/index.js:1319-1334): like `insertG`, but a
**non-empty string** intermediate value is converted to
`{ _value: old }` before descending (`typeof current[p] === "string"`),
while a falsy (empty string) intermediate value is replaced by `{}` by the
preceding `!current[p]` guard. -/
def insertC : List (List Char) → List Char → JObj → JObj
  | [], _, o => o
  | [p], v, o => setKey p (.str v) o
  | p :: q :: rest, v, o =>
    match lookupKey p o with
    | none => setKey p (.obj (insertC (q :: rest) v .nil)) o
    | some (.str s) =>
      if s.isEmpty then setKey p (.obj (insertC (q :: rest) v .nil)) o
      else setKey p (.obj (insertC (q :: rest) v (.cons valueSentinel (.str s) .nil))) o
    | some (.obj sub) => setKey p (.obj (insertC (q :: rest) v sub)) o

/-- `fullKey = prefix ? prefix + "." + key : key`, the accumulator step of
the flattening walks (`getTranslationKeys`, `collectValues`). -/
def mkFull (pre k : List Char) : List Char := if pre.isEmpty then k else pre ++ '.' :: k

mutual
/-- Flattening with values, as in `collectValues`
(src/index.js:919-931); `getTranslationKeys` (src/index.js:833-857) is
the same walk keeping only the keys. -/
def flattenVal (full : List Char) : JVal → List (List Char × List Char)
  | .str s => [(full, s)]
  | .obj es => flattenObj full es
def flattenObj (pre : List Char) : JObj → List (List Char × List Char)
  | .nil => []
  | .cons k v rest => flattenVal (mkFull pre k) v ++ flattenObj pre rest
end

/-- The fully-qualified leaf key set of a persisted tree, in discovery
order (`getTranslationKeys`, src/index.js:833-857). -/
def treeKeys (o : JObj) : List (List Char) := (flattenObj [] o).map Prod.fst

/-- Fold of `insertG` over a key/value sequence, the nested branch of
`generateI18nFile`. -/
def nestAllG : List (List Char × List Char) → JObj → Option JObj
  | [], o => some o
  | (k, v) :: rest, o =>
    match insertG (splitDots k) v o with
    | none => none
    | some o' => nestAllG rest o'

/-- Fold of `insertC` over a key sequence with a fixed placeholder value,
the tree-building loop of `extractKeysFromCode` (src/index.js:1315-1335). -/
def extractBuild (keys : List (List Char)) (placeholder : List Char) : JObj :=
  keys.foldl (fun o k => insertC (splitDots k) placeholder o) .nil

/-! ### Namespace construction (`getNamespaceFromPath`, src/index.js:158-187)

`path.relative(rootPath, filePath)` belongs to the external path library;
the model takes the already-relative path (with `/` separators) as input. -/

def splitSlashAux : List Char → List Char → List (List Char)
  | [], acc => [acc.reverse]
  | c :: cs, acc => if c = '/' then acc.reverse :: splitSlashAux cs [] else splitSlashAux cs (c :: acc)

/-- `replace(/\.(jsx?|tsx?)$/, "")`. -/
def removeJsExt (l : List Char) : List Char :=
  if ".jsx".toList.isSuffixOf l then List.take (l.length - 4) l
  else if ".tsx".toList.isSuffixOf l then List.take (l.length - 4) l
  else if ".js".toList.isSuffixOf l then List.take (l.length - 3) l
  else if ".ts".toList.isSuffixOf l then List.take (l.length - 3) l
  else l

/-- `replace(/([A-Z])/g, "_$1")`. -/
def expandUpper (l : List Char) : List Char :=
  (l.map (fun c => if isUpperAlpha c then ['_', c] else [c])).flatten

/-- `replace(/^_/, "")`. -/
def dropOneLeadingUnderscore : List Char → List Char
  | '_' :: rest => rest
  | l => l

/-- PascalCase to snake_case conversion of the file base name. -/
def pascalToSnake (l : List Char) : List Char :=
  dropOneLeadingUnderscore (lowerStr (expandUpper l))

def skipDirs : List (List Char) :=
  ["src".toList, "app".toList, "lib".toList, "utils".toList]

/-- `getNamespaceFromPath` (src/index.js:158-187) on the relative path. -/
def getNamespaceFromPath (relPath : List Char) : List Char :=
  let parts := splitSlashAux relPath []
  let fileName := removeJsExt (parts.getLast?.getD [])
  let dirs := parts.dropLast
  let nsDirs := dirs.filterMap (fun p =>
    let lp := lowerStr p
    if skipDirs.contains lp then none else some lp)
  let ns := nsDirs ++ (if lowerStr fileName = "index".toList then [] else [pascalToSnake fileName])
  if ns.isEmpty then "common".toList else joinDots ns

/-! ### Key uniqueness loop (src/index.js:675-690 and 1140-1153) -/

def decDigit (d : Nat) : Char :=
  match d with
  | 0 => '0' | 1 => '1' | 2 => '2' | 3 => '3' | 4 => '4'
  | 5 => '5' | 6 => '6' | 7 => '7' | 8 => '8' | _ => '9'

def renderAux : Nat → Nat → List Char
  | 0, _ => []
  | fuel + 1, n => if n = 0 then [] else renderAux fuel (n / 10) ++ [decDigit (n % 10)]

/-- Decimal rendering of a counter, as interpolated by `` `${counter}` ``. -/
def renderNat (n : Nat) : List Char := if n = 0 then ['0'] else renderAux n n

/-- `ns ? ns + "." + key : key`. -/
def nsJoin (ns key : List Char) : List Char := if ns.isEmpty then key else ns ++ '.' :: key

/-- The candidate full key tried at loop iteration `k`: the unsuffixed
base first, then `base_1`, `base_2`, … -/
def candAt (ns base : List Char) (k : Nat) : List Char :=
  if k = 0 then nsJoin ns base else nsJoin ns (base ++ '_' :: renderNat k)

def findFreeAux (used : List (List Char)) (ns base : List Char) : Nat → Nat → List Char
  | 0, counter => candAt ns base counter
  | fuel + 1, counter =>
    if used.contains (candAt ns base counter) then findFreeAux used ns base fuel (counter + 1)
    else candAt ns base counter

/-- The `while (usedKeys.has(...))` suffix loop.  The source loop runs
until a free candidate appears; `used.length + 1` iterations always
suffice (`findFreeKey_not_mem` below), so the fuel is not a semantic
restriction. -/
def findFreeKey (used : List (List Char)) (ns base : List Char) : List Char :=
  findFreeAux used ns base (used.length + 1) 0

/-! ### Generate (`generateI18nFile`, src/index.js:663-729) -/

def genAssignAux (nsFlag : Bool) (used : List (List Char)) :
    List StringOccurrence → List (List Char × List Char)
  | [] => []
  | r :: rest =>
    let ns := if nsFlag then getNamespaceFromPath r.file else []
    let fk := findFreeKey used ns (generateKey r.value)
    (fk, r.value) :: genAssignAux nsFlag (used ++ [fk]) rest

/-- The (fullKey, value) sequence assigned by `generateI18nFile`
(src/index.js:675-716), in occurrence order. -/
def genAssign (nsFlag : Bool) (results : List StringOccurrence) : List (List Char × List Char) :=
  genAssignAux nsFlag [] results

/-- The nested `TranslationTree` produced by `generateI18nFile` in its
default (namespaced, non-flat) mode. -/
def generateI18nTree (results : List StringOccurrence) : Option JObj :=
  nestAllG (genAssign true results) .nil

/-! ### Merge ("complete") (`generateComplete`, src/index.js:1097-1273) -/

structure KeyUsageRec where
  key : List Char
  file : List Char
  line : Nat
  column : Nat
  invokedFn : List Char
deriving DecidableEq, Repr

structure Loc where
  file : List Char
  line : Nat
  originalValue : Option (List Char)
deriving DecidableEq, Repr

inductive KeySource where
  | existing : KeySource
  | hardcoded : KeySource
deriving DecidableEq, Repr

structure KeyEntry where
  value : List Char
  source : KeySource
  locations : List Loc
deriving DecidableEq, Repr

def emapLookup (k : List Char) : List (List Char × KeyEntry) → Option KeyEntry
  | [] => none
  | (k', e) :: rest => if k = k' then some e else emapLookup k rest

def emapHas (k : List Char) (m : List (List Char × KeyEntry)) : Bool :=
  (emapLookup k m).isSome

def emapUpdate (k : List Char) (f : KeyEntry → KeyEntry) :
    List (List Char × KeyEntry) → List (List Char × KeyEntry)
  | [] => []
  | (k', e) :: rest => if k = k' then (k', f e) :: rest else (k', e) :: emapUpdate k f rest

/-- `Map.prototype.set`: overwrite in place or append a fresh key. -/
def emapSet (k : List Char) (e : KeyEntry) (m : List (List Char × KeyEntry)) :
    List (List Char × KeyEntry) :=
  if emapHas k m then emapUpdate k (fun _ => e) m else m ++ [(k, e)]

/-- Step 1 of `generateComplete` (src/index.js:1108-1122): one used key
folded into `existingKeys` — create the entry with the placeholder value
and source `existing` if absent, then push the call-site location. -/
def addUsageStep (placeholder : List Char) (m : List (List Char × KeyEntry))
    (u : KeyUsageRec) : List (List Char × KeyEntry) :=
  let m' := if emapHas u.key m then m else m ++ [(u.key, ⟨placeholder, .existing, []⟩)]
  emapUpdate u.key (fun e => { e with locations := e.locations ++ [⟨u.file, u.line, none⟩] }) m'

def buildExistingKeys (placeholder : List Char) (usedKeys : List KeyUsageRec) :
    List (List Char × KeyEntry) :=
  usedKeys.foldl (addUsageStep placeholder) []

/-- Step 3 of `generateComplete` (src/index.js:1140-1169): one hardcoded
occurrence folded into `newKeys` — find a full key free of both
`usedKeyNames` and `newKeys`, create the entry with the occurrence text
and source `hardcoded` if absent, then push the occurrence location. -/
def addOccurStep (nsFlag : Bool) (existingNames : List (List Char))
    (m : List (List Char × KeyEntry)) (r : StringOccurrence) : List (List Char × KeyEntry) :=
  let ns := if nsFlag then getNamespaceFromPath r.file else []
  let fk := findFreeKey (existingNames ++ m.map Prod.fst) ns (generateKey r.value)
  let m' := if emapHas fk m then m else m ++ [(fk, ⟨r.value, .hardcoded, []⟩)]
  emapUpdate fk (fun e => { e with locations := e.locations ++ [⟨r.file, r.line, some r.value⟩] }) m'

def buildNewKeys (nsFlag : Bool) (existingNames : List (List Char))
    (results : List StringOccurrence) : List (List Char × KeyEntry) :=
  results.foldl (addOccurStep nsFlag existingNames) []

/-- `new Map([...existingKeys, ...newKeys])` (src/index.js:1177). -/
def emapUnion (a b : List (List Char × KeyEntry)) : List (List Char × KeyEntry) :=
  (a ++ b).foldl (fun m kv => emapSet kv.1 kv.2 m) []

/-- The merged key set of `generateComplete` (step 4, src/index.js:1177). -/
def generateCompleteKeys (nsFlag : Bool) (placeholder : List Char)
    (usedKeys : List KeyUsageRec) (results : List StringOccurrence) :
    List (List Char × KeyEntry) :=
  let ex := buildExistingKeys placeholder usedKeys
  emapUnion ex (buildNewKeys nsFlag (ex.map Prod.fst) results)

/-- The nested translation tree written by `generateComplete`
(src/index.js:1179-1198, non-flat mode). -/
def generateCompleteTree (nsFlag : Bool) (placeholder : List Char)
    (usedKeys : List KeyUsageRec) (results : List StringOccurrence) : JObj :=
  (generateCompleteKeys nsFlag placeholder usedKeys results).foldl
    (fun o kv => insertC (splitDots kv.1) kv.2.value o) .nil

/-! ### Validate (`validateKeys`, src/index.js:1393-1477) -/

def firstDedupAux (seen : List (List Char)) : List (List Char) → List (List Char)
  | [] => []
  | k :: rest =>
    if seen.contains k then firstDedupAux seen rest
    else k :: firstDedupAux (seen ++ [k]) rest

/-- `getTranslationKeys` (src/index.js:833-857): the flattened key set; a
JavaScript `Set` keeps the first occurrence of each key in insertion
order. -/
def getTranslationKeysModel (o : JObj) : List (List Char) :=
  firstDedupAux [] (treeKeys o)

/-- `missingKeys`: used keys absent from the defined set, in usage order
(src/index.js:1411-1415). -/
def validateMissing (definedKeys : List (List Char)) (used : List KeyUsageRec) :
    List KeyUsageRec :=
  used.filter (fun u => !definedKeys.contains u.key)

/-- `unusedKeys`: defined keys absent from the used set
(src/index.js:1418-1422). -/
def validateUnused (definedKeys : List (List Char)) (used : List KeyUsageRec) :
    List (List Char) :=
  definedKeys.filter (fun k => !(used.map KeyUsageRec.key).contains k)

def validateKeysModel (definedKeys : List (List Char)) (used : List KeyUsageRec) :
    List KeyUsageRec × List (List Char) :=
  (validateMissing definedKeys used, validateUnused definedKeys used)

/-! ### Exit behavior of the validate and duplicate-check modes
(`main`, src/index.js:1617-1651)

Both CLI branches call the operation, optionally write the JSON result,
and `return`; no path calls `process.exit` or assigns `process.exitCode`,
so the Node process terminates with status 0.  The models carry that
constant exit status. -/

structure ValidateRun where
  missing : List KeyUsageRec
  unused : List (List Char)
  exitCode : Nat
deriving DecidableEq, Repr

/-- The `--validate` branch of `main` (src/index.js:1643-1651). -/
def runValidateMode (tree : JObj) (used : List KeyUsageRec) : ValidateRun :=
  let defined := getTranslationKeysModel tree
  ⟨validateMissing defined used, validateUnused defined used, 0⟩

/-- Every full key recorded by `findDuplicatesInObject`
(src/index.js:886-907): each entry key, branch and leaf alike, in
pre-order. -/
def allKeysPreObj : List Char → JObj → List (List Char)
  | _, .nil => []
  | pre, .cons k (.str _) rest => mkFull pre k :: allKeysPreObj pre rest
  | pre, .cons k (.obj es) rest =>
    mkFull pre k :: (allKeysPreObj (mkFull pre k) es ++ allKeysPreObj pre rest)

def dupKeysAux (seen : List (List Char)) : List (List Char) → List (List Char)
  | [] => []
  | k :: rest =>
    if seen.contains k then k :: dupKeysAux (seen ++ [k]) rest
    else dupKeysAux (seen ++ [k]) rest

def updateGroup (v k : List Char) :
    List (List Char × List (List Char)) → List (List Char × List (List Char))
  | [] => []
  | (v', ks) :: rest => if v = v' then (v', ks ++ [k]) :: rest else (v', ks) :: updateGroup v k rest

def groupByValueAux (acc : List (List Char × List (List Char))) :
    List (List Char × List Char) → List (List Char × List (List Char))
  | [] => acc
  | (k, v) :: rest =>
    if (acc.map Prod.fst).contains v then groupByValueAux (updateGroup v k acc) rest
    else groupByValueAux (acc ++ [(v, [k])]) rest

/-- `valueToKeys` filtered to groups of at least two keys
(src/index.js:917-938). -/
def dupValueGroups (o : JObj) : List (List Char × List (List Char)) :=
  (groupByValueAux [] (flattenObj [] o)).filter (fun g => decide (1 < g.2.length))

structure DupRun where
  duplicateKeys : List (List Char)
  duplicateValues : List (List Char × List (List Char))
  exitCode : Nat
deriving DecidableEq, Repr

/-- The `--check-duplicates` branch of `main` (src/index.js:1617-1624). -/
def runDuplicateCheck (o : JObj) : DupRun :=
  ⟨dupKeysAux [] (allKeysPreObj [] o), dupValueGroups o, 0⟩

/-! ### Proof-support definitions

Segment-level counterparts of flattening and nested insertion (paths as
segment lists instead of dotted strings), the well-formedness predicate
satisfied by every tree the nested Generate branch produces, and a
decimal parser inverse to `renderNat`. -/

/-- Decimal parser, the inverse of `renderNat`. -/
def parseDec (l : List Char) : Nat := l.foldl (fun a c => a * 10 + (c.toNat - 48)) 0

def objHasKey (k : List Char) (o : JObj) : Bool := (lookupKey k o).isSome

def jobjConcat : JObj → JObj → JObj
  | .nil, b => b
  | .cons k v rest, b => .cons k v (jobjConcat rest b)

mutual
/-- Flattening with paths kept as segment lists. -/
def flattenSegVal : JVal → List (List (List Char) × List Char)
  | .str s => [([], s)]
  | .obj es => flattenSegObj es
def flattenSegObj : JObj → List (List (List Char) × List Char)
  | .nil => []
  | .cons k v rest =>
    (flattenSegVal v).map (fun pr => (k :: pr.1, pr.2)) ++ flattenSegObj rest
end

/-- Fold of `insertG` over already-split paths. -/
def insertSegAll : List (List (List Char) × List Char) → JObj → Option JObj
  | [], o => some o
  | (p, v) :: rest, o =>
    match insertG p v o with
    | none => none
    | some o' => insertSegAll rest o'

def jobjIsNil : JObj → Bool
  | .nil => true
  | .cons _ _ _ => false

mutual
/-- Structural invariants of a tree built by the nested Generate branch:
every branch is non-empty, sibling keys are distinct, and every key is a
non-empty dot-free segment (it came out of `split(".")`). -/
def wfVal : JVal → Bool
  | .str _ => true
  | .obj es => !jobjIsNil es && wfObj es
def wfObj : JObj → Bool
  | .nil => true
  | .cons k v rest =>
    !k.isEmpty && !k.contains '.' && !objHasKey k rest && wfVal v && wfObj rest
end

/-! ### Concrete inputs used by witnesses and counterexamples -/

/-- The spec §8 validate example baseline: `{a: {b: "B", c: "C"}}`. -/
def exampleBaselineTree : JObj :=
  .cons "a".toList
    (.obj (.cons "b".toList (.str "B".toList) (.cons "c".toList (.str "C".toList) .nil))) .nil

/-- The spec §8 validate example usage set: `a.b` and `a.d`. -/
def exampleUsedKeys : List KeyUsageRec :=
  [⟨"a.b".toList, "f.js".toList, 1, 2, "t".toList⟩,
   ⟨"a.d".toList, "f.js".toList, 3, 4, "t".toList⟩]

/-- The spec §8 duplicate-value example baseline:
`{"a": "Cancel", "b": "Cancel"}`. -/
def cancelTree : JObj :=
  .cons "a".toList (.str "Cancel".toList) (.cons "b".toList (.str "Cancel".toList) .nil)

/-- A nested tree of the shape Generate produces, used as the round-trip
witness input: `{auth: {login: "Sign in", logout: "Bye"}, common: {ok: "OK"}}`. -/
def c8Tree : JObj :=
  .cons "auth".toList
    (.obj (.cons "login".toList (.str "Sign in".toList)
      (.cons "logout".toList (.str "Bye".toList) .nil)))
    (.cons "common".toList (.obj (.cons "ok".toList (.str "OK".toList) .nil)) .nil)

/-- A merge scenario for C1: the codebase already calls
`t("common.hello")` and also contains the hardcoded string `"hello"` in
a root-level `index.js`, whose namespace is `common` and whose generated
candidate key is exactly `common.hello`. -/
def c1UsedKeys : List KeyUsageRec :=
  [⟨"common.hello".toList, "a.js".toList, 1, 0, "t".toList⟩]

def c1Occurrences : List StringOccurrence :=
  [⟨"index.js".toList, 2, 0, "hello".toList, "JSX Text".toList, []⟩]

/-! ## Supporting lemmas -/

theorem dropWhile_eq_self_of_head? (p : Char → Bool) (l : List Char)
    (h : ∀ c, l.head? = some c → p c = false) : l.dropWhile p = l := by
  cases l with
  | nil => rfl
  | cons c cs => simp [List.dropWhile_cons, h c rfl]

theorem jsTrim_eq_rdropWhile (l : List Char) :
    jsTrim l = List.rdropWhile isWsChar (l.dropWhile isWsChar) := rfl

theorem jsTrim_idem (l : List Char) : jsTrim (jsTrim l) = jsTrim l := by
  rw [jsTrim_eq_rdropWhile, jsTrim_eq_rdropWhile]
  have hd : (List.rdropWhile isWsChar (l.dropWhile isWsChar)).dropWhile isWsChar
      = List.rdropWhile isWsChar (l.dropWhile isWsChar) := by
    apply dropWhile_eq_self_of_head?
    intro c hc
    obtain ⟨t, ht⟩ := List.rdropWhile_prefix isWsChar (l.dropWhile isWsChar)
    have hm : (l.dropWhile isWsChar).head? = some c := by
      rw [← ht, List.head?_append, hc]
      rfl
    have hmne : l.dropWhile isWsChar ≠ [] := by
      intro h0
      rw [h0] at hm
      cases hm
    have hh := List.head_dropWhile_not isWsChar l hmne
    have h2 : (l.dropWhile isWsChar).head? = some ((l.dropWhile isWsChar).head hmne) :=
      List.head?_eq_head hmne
    rw [h2] at hm
    injection hm with hm
    rw [← hm]
    simpa using hh
  rw [hd, List.rdropWhile_idempotent]

theorem jsTrim_ne_nil (l : List Char) (h : l.all isWsChar = false) : jsTrim l ≠ [] := by
  rw [jsTrim_eq_rdropWhile]
  intro hnil
  rw [List.rdropWhile_eq_nil_iff] at hnil
  have hall : ∀ x ∈ l, isWsChar x = true := by
    intro x hx
    rw [← List.takeWhile_append_dropWhile (p := isWsChar) (l := l)] at hx
    rcases List.mem_append.mp hx with h1 | h2
    · exact List.mem_takeWhile_imp h1
    · exact hnil x h2
  rw [List.all_eq_true.mpr hall] at h
  simp at h

theorem shouldExclude_false_facts (minLen : Nat) (v : List Char)
    (h : shouldExcludeString minLen v = false) :
    v.isEmpty = false ∧ minLen ≤ (jsTrim v).length ∧ matchesExcludePattern v = false := by
  unfold shouldExcludeString at h
  by_cases h1 : v.isEmpty = true
  · rw [if_pos h1] at h; cases h
  · rw [if_neg h1] at h
    by_cases h2 : (jsTrim v).length < minLen
    · rw [if_pos h2] at h; cases h
    · rw [if_neg h2] at h
      exact ⟨by simpa using h1, by omega, h⟩

theorem wsOnly_false_of_no_exclude (v : List Char) (h : matchesExcludePattern v = false) :
    v.all isWsChar = false := by
  unfold matchesExcludePattern at h
  simp only [Bool.or_eq_false_iff] at h
  obtain ⟨-, hws⟩ := h
  simpa [patWsOnly] using hws

/-! ## C10 -/

/-- C10 (counterexample): the minimum-length check of
`shouldExcludeString` is evaluated against the **trimmed** text, not the
untrimmed text as the claim states: the value `"  a  "` has untrimmed
length 5 ≥ 2 yet is excluded, while the claim-described check would emit
it. -/
theorem C10_counterexample_length_check_is_on_trimmed :
    addResult 2 [] 1 0 "  a  ".toList [] [] = none ∧
    2 ≤ ("  a  ".toList).length ∧
    specAddResultUntrimmedLen 2 [] 1 0 "  a  ".toList [] []
      = some ⟨[], 1, 0, "a".toList, [], []⟩ := by decide

/-- C10 (amended): every occurrence emitted by `addResult` stores the
trimmed text (equal to its own trim), its stored length is at least the
configured minimum, and it is never empty or whitespace-only; the
minimum-length check is evaluated against the **trimmed** text, while
the pattern exclusions are evaluated against the untrimmed text. -/
theorem C10_emitted_value_trimmed_minLength_nonempty :
    ∀ (minLen : Nat) (file : List Char) (line column : Nat)
      (v kind ctx : List Char) (o : StringOccurrence),
      addResult minLen file line column v kind ctx = some o →
      o.value = jsTrim o.value ∧ minLen ≤ o.value.length ∧ o.value ≠ [] := by
  intro minLen file line column v kind ctx o h
  unfold addResult at h
  cases hex : shouldExcludeString minLen v with
  | true => simp [hex] at h
  | false =>
    cases hi : isI18nString v with
    | true => simp [hex, hi] at h
    | false =>
      simp [hex, hi] at h
      obtain ⟨-, hfacts2, hfacts3⟩ := shouldExclude_false_facts minLen v hex
      have hws := wsOnly_false_of_no_exclude v hfacts3
      rw [← h]
      refine ⟨(jsTrim_idem v).symm, hfacts2, jsTrim_ne_nil v hws⟩

/-- C10 (witness): concrete application at the value `"Hello world"`. -/
theorem C10_emitted_value_witness :
    addResult 2 [] 1 0 "Hello world".toList [] []
      = some ⟨[], 1, 0, "Hello world".toList, [], []⟩ ∧
    ("Hello world".toList = jsTrim "Hello world".toList ∧
      2 ≤ ("Hello world".toList).length ∧ "Hello world".toList ≠ []) :=
  ⟨by decide,
   C10_emitted_value_trimmed_minLength_nonempty 2 [] 1 0 "Hello world".toList [] []
     ⟨[], 1, 0, "Hello world".toList, [], []⟩ (by decide)⟩

/-! ## C4 -/

/-- C4 (counterexample): the distinct inputs `"a"` and `"text 2p"` have
different normalized forms (`"a"` vs `"text_2p"`), yet both produce the
fragment `"text_2p"`: the short normalized form of `"a"` takes the hash
fallback `text_` + base36(97) = `text_2p`, colliding with the normal-path
fragment of `"text 2p"`. -/
theorem C4_counterexample_fallback_collision :
    "a".toList ≠ "text 2p".toList ∧
    normalizeKey "a".toList ≠ normalizeKey "text 2p".toList ∧
    generateKey "a".toList = generateKey "text 2p".toList := by decide

/-- C4 (amended): the Key Generator is injective on inputs whose
normalized forms differ **when both normalized forms reach the configured
minimum of 2 characters** (so neither takes the hash fallback); a
fallback key can collide with a normal fragment.  Determinism holds: the
generator is a pure function of its input. -/
theorem C4_generateKey_injective_outside_fallback :
    (∀ s t : List Char, normalizeKey s ≠ normalizeKey t →
      2 ≤ (normalizeKey s).length → 2 ≤ (normalizeKey t).length →
      generateKey s ≠ generateKey t) ∧
    (∀ s : List Char, generateKey s = generateKey s) := by
  constructor
  · intro s t hne hs ht
    unfold generateKey
    rw [if_neg (by omega), if_neg (by omega)]
    exact hne
  · intro s
    rfl

/-- C4 (witness): concrete application at `"ab"` and `"cd"`. -/
theorem C4_generateKey_injective_witness :
    generateKey "ab".toList ≠ generateKey "cd".toList :=
  C4_generateKey_injective_outside_fallback.1 "ab".toList "cd".toList
    (by decide) (by decide) (by decide)

/-! ## C5 -/

/-- C5 (counterexample): the claimed algorithm omits the initial trim
performed by the source.  Under the replacement reading of "joining words
with underscores", the input `" hi"` gives `"_hi"` instead of the
source's `"hi"`; under the word-splitting reading, the input `"! hi"`
gives `"hi"` instead of the source's `"_hi"`.  So the claimed description
disagrees with the code on a concrete input under either reading. -/
theorem C5_counterexample_missing_trim_step :
    generateKey " hi".toList ≠ specGenerateKeyReplace " hi".toList ∧
    generateKey "! hi".toList ≠ specGenerateKeyWords "! hi".toList := by decide

/-- C5 (amended): the source first trims the (lower-cased) value and then
applies exactly the claimed steps, so the claimed description is accurate
for every input without leading/trailing whitespace; and every input
produces a non-empty key (the hash fallback applies exactly when the
normalized form is shorter than 2). -/
theorem C5_generateKey_algorithm :
    (∀ v : List Char, jsTrim (lowerStr v) = lowerStr v →
      generateKey v = specGenerateKeyReplace v) ∧
    (∀ v : List Char, (normalizeKey v).length < 2 →
      generateKey v = "text_".toList ++ simpleHash v) ∧
    (∀ v : List Char, generateKey v ≠ []) := by
  refine ⟨?_, ?_, ?_⟩
  · intro v h
    have hn : normalizeKey v = specNormalizeReplace v := by
      unfold normalizeKey specNormalizeReplace
      rw [h]
    unfold generateKey specGenerateKeyReplace specFallbackKey
    rw [hn]
  · intro v h
    unfold generateKey
    rw [if_pos h]
  · intro v
    unfold generateKey
    by_cases h : (normalizeKey v).length < 2
    · rw [if_pos h]
      intro hc
      have := (List.append_eq_nil.mp hc).1
      cases this
    · rw [if_neg h]
      intro hc
      rw [hc] at h
      simp at h

/-- C5 (witness): concrete applications, including one exercising the
fallback path. -/
theorem C5_generateKey_algorithm_witness :
    generateKey "hi there".toList = specGenerateKeyReplace "hi there".toList ∧
    generateKey "??".toList = "text_".toList ++ simpleHash "??".toList :=
  ⟨C5_generateKey_algorithm.1 "hi there".toList (by decide),
   C5_generateKey_algorithm.2.1 "??".toList (by decide)⟩

/-! ## C6 -/

theorem isInsideI18nCall_append (pre post : List JsNode) (n : JsNode)
    (h : isI18nCallNode n = true) :
    isInsideI18nCall (pre ++ n :: post) = true := by
  induction pre with
  | nil => simp [isInsideI18nCall, h]
  | cons m pre ih =>
    simp only [List.cons_append, isInsideI18nCall]
    by_cases hm : isI18nCallNode m = true
    · rw [if_pos hm]
    · rw [if_neg hm]
      exact ih

/-- C6: a literal whose ancestor chain contains a call expression whose
callee is a configured translation-function name (direct identifier or
accessed member property) is never emitted, no matter how many non-call
(or unrelated call) nodes lie between the literal and that call: the
detector walks the full ancestor chain. -/
theorem C6_no_occurrence_inside_i18n_call :
    ∀ (minLen : Nat) (pre post : List JsNode) (c : JsCallee)
      (file : List Char) (line column : Nat) (v kind ctx : List Char),
      isI18nCallNode (.callExpr c) = true →
      classifyCandidate minLen (pre ++ .callExpr c :: post) file line column v kind ctx
        = none := by
  intro minLen pre post c file line column v kind ctx h
  unfold classifyCandidate
  rw [if_pos (isInsideI18nCall_append pre post (.callExpr c) h)]

/-- C6 (witness): a literal nested two non-call expressions below a
`t(...)` call is not emitted. -/
theorem C6_no_occurrence_witness :
    classifyCandidate 2
      ([JsNode.otherNode, JsNode.otherNode] ++
        JsNode.callExpr (.ident "t".toList) :: [JsNode.otherNode])
      "f.js".toList 1 0 "Hello world".toList [] [] = none :=
  C6_no_occurrence_inside_i18n_call 2 [JsNode.otherNode, JsNode.otherNode]
    [JsNode.otherNode] (.ident "t".toList) "f.js".toList 1 0
    "Hello world".toList [] [] (by decide)

/-! ## C7 -/

/-- C7: `validateKeys` computes `missing` as exactly the used keys absent
from the defined set and `unused` as exactly the defined keys absent from
the used set; on the spec example (baseline `{a.b, a.c}` flattened from
the persisted tree, usages `{a.b, a.d}`) it yields missing `{a.d}` and
unused `{a.c}`. -/
theorem C7_validateKeys_missing_unused :
    (∀ (d : List (List Char)) (u : List KeyUsageRec) (x : KeyUsageRec),
      x ∈ (validateKeysModel d u).1 ↔ x ∈ u ∧ x.key ∉ d) ∧
    (∀ (d : List (List Char)) (u : List KeyUsageRec) (k : List Char),
      k ∈ (validateKeysModel d u).2 ↔ k ∈ d ∧ k ∉ u.map KeyUsageRec.key) ∧
    ((runValidateMode exampleBaselineTree exampleUsedKeys).missing.map KeyUsageRec.key
        = ["a.d".toList] ∧
      (runValidateMode exampleBaselineTree exampleUsedKeys).unused = ["a.c".toList]) := by
  refine ⟨?_, ?_, by decide⟩
  · intro d u x
    simp [validateKeysModel, validateMissing, List.mem_filter]
  · intro d u k
    simp [validateKeysModel, validateUnused, List.mem_filter]

/-! ## C9 -/

/-- C9 (counterexample): a validation run with a missing and an unused
key, and a duplicate-check run with a duplicate-value group, both
terminate with exit status 0 — `main` never calls `process.exit` nor sets
`process.exitCode`, contradicting the claimed non-zero termination. -/
theorem C9_counterexample_exit_zero_with_issues :
    (runValidateMode exampleBaselineTree exampleUsedKeys).missing ≠ [] ∧
    (runValidateMode exampleBaselineTree exampleUsedKeys).unused ≠ [] ∧
    (runValidateMode exampleBaselineTree exampleUsedKeys).exitCode = 0 ∧
    (runDuplicateCheck cancelTree).duplicateValues ≠ [] ∧
    (runDuplicateCheck cancelTree).exitCode = 0 := by decide

/-- C9 (amended): the validate and duplicate-check operations report
their findings but never change the process exit status: both terminate
with exit status 0 for every input, issues or not.  Pipeline gating
requires inspecting the exported JSON, as the repository README
documents. -/
theorem C9_exit_status_always_zero :
    (∀ (t : JObj) (u : List KeyUsageRec), (runValidateMode t u).exitCode = 0) ∧
    (∀ t : JObj, (runDuplicateCheck t).exitCode = 0) :=
  ⟨fun _ _ => rfl, fun _ => rfl⟩

/-! ## Uniqueness loop: supporting lemmas (C3, C1) -/

theorem decDigit_toNat (d : Nat) (h : d < 10) : (decDigit d).toNat = 48 + d := by
  interval_cases d <;> rfl

theorem parseDec_append (l : List Char) (c : Char) :
    parseDec (l ++ [c]) = (parseDec l) * 10 + (c.toNat - 48) := by
  unfold parseDec
  rw [List.foldl_append]
  rfl

theorem renderAux_parse (fuel : Nat) : ∀ n : Nat, n ≤ fuel → parseDec (renderAux fuel n) = n := by
  induction fuel with
  | zero =>
    intro n hn
    interval_cases n
    rfl
  | succ f ih =>
    intro n hn
    unfold renderAux
    by_cases hz : n = 0
    · rw [if_pos hz, hz]
      rfl
    · rw [if_neg hz, parseDec_append]
      have hdiv : n / 10 ≤ f := by
        have := Nat.div_lt_self (Nat.pos_of_ne_zero hz) (by norm_num : 1 < 10)
        omega
      rw [ih (n / 10) hdiv, decDigit_toNat (n % 10) (Nat.mod_lt n (by norm_num))]
      omega

theorem renderNat_parse (n : Nat) : parseDec (renderNat n) = n := by
  unfold renderNat
  by_cases h : n = 0
  · rw [if_pos h, h]
    rfl
  · rw [if_neg h]
    exact renderAux_parse n n le_rfl

theorem renderNat_inj {m n : Nat} (h : renderNat m = renderNat n) : m = n := by
  have h1 := renderNat_parse m
  rw [h, renderNat_parse] at h1
  omega

theorem renderNat_ne_nil (n : Nat) : renderNat n ≠ [] := by
  unfold renderNat
  by_cases h : n = 0
  · rw [if_pos h]
    simp
  · rw [if_neg h]
    cases n with
    | zero => exact absurd rfl h
    | succ f =>
      unfold renderAux
      rw [if_neg h]
      simp

theorem nsJoin_inj (ns : List Char) {a b : List Char} (h : nsJoin ns a = nsJoin ns b) :
    a = b := by
  unfold nsJoin at h
  by_cases hns : ns.isEmpty = true
  · rwa [if_pos hns, if_pos hns] at h
  · rw [if_neg hns, if_neg hns] at h
    have := List.append_cancel_left h
    injection this

theorem candAt_inj (ns base : List Char) : Function.Injective (candAt ns base) := by
  intro i j h
  unfold candAt at h
  by_cases hi : i = 0 <;> by_cases hj : j = 0
  · omega
  · rw [if_pos hi, if_neg hj] at h
    have h2 := nsJoin_inj ns h
    have h3 := congrArg List.length h2
    simp at h3
  · rw [if_neg hi, if_pos hj] at h
    have h2 := nsJoin_inj ns h
    have h3 := congrArg List.length h2
    simp at h3
  · rw [if_neg hi, if_neg hj] at h
    have h2 := nsJoin_inj ns h
    have h3 := List.append_cancel_left h2
    injection h3 with h4 h5
    exact renderNat_inj h5

theorem exists_free_cand (used : List (List Char)) (ns base : List Char) :
    ∃ k, k ≤ used.length ∧ candAt ns base k ∉ used := by
  by_contra hc
  push_neg at hc
  have hsub : ((List.range (used.length + 1)).map (candAt ns base)) ⊆ used := by
    intro x hx
    obtain ⟨k, hk, rfl⟩ := List.mem_map.mp hx
    exact hc k (Nat.lt_succ_iff.mp (List.mem_range.mp hk))
  have hnd : ((List.range (used.length + 1)).map (candAt ns base)).Nodup :=
    (List.nodup_range _).map (candAt_inj ns base)
  have hle := (hnd.subperm hsub).length_le
  simp at hle

theorem findFreeAux_spec (used : List (List Char)) (ns base : List Char) :
    ∀ (fuel counter : Nat),
      (∃ k, counter ≤ k ∧ k < counter + fuel ∧ candAt ns base k ∉ used) →
      ∃ i, counter ≤ i ∧ findFreeAux used ns base fuel counter = candAt ns base i ∧
        candAt ns base i ∉ used ∧
        ∀ j, counter ≤ j → j < i → candAt ns base j ∈ used := by
  intro fuel
  induction fuel with
  | zero =>
    intro counter h
    obtain ⟨k, hk1, hk2, -⟩ := h
    omega
  | succ f ih =>
    intro counter hex
    unfold findFreeAux
    by_cases hc : used.contains (candAt ns base counter) = true
    · rw [if_pos hc]
      have hmem : candAt ns base counter ∈ used := by simpa using hc
      have hex' : ∃ k, counter + 1 ≤ k ∧ k < counter + 1 + f ∧ candAt ns base k ∉ used := by
        obtain ⟨k, h1, h2, h3⟩ := hex
        refine ⟨k, ?_, by omega, h3⟩
        rcases Nat.eq_or_lt_of_le h1 with rfl | h
        · exact absurd hmem h3
        · omega
      obtain ⟨i, hi1, hi2, hi3, hi4⟩ := ih (counter + 1) hex'
      refine ⟨i, by omega, hi2, hi3, ?_⟩
      intro j hj1 hj2
      rcases Nat.eq_or_lt_of_le hj1 with rfl | h
      · exact hmem
      · exact hi4 j h hj2
    · rw [if_neg hc]
      refine ⟨counter, le_rfl, rfl, by simpa using hc, ?_⟩
      intro j hj1 hj2
      omega

/-- The suffix loop returns the first unclaimed candidate: the unsuffixed
base when free, else `base_i` with `i` minimal. -/
theorem findFreeKey_spec (used : List (List Char)) (ns base : List Char) :
    ∃ i, findFreeKey used ns base = candAt ns base i ∧ candAt ns base i ∉ used ∧
      ∀ j < i, candAt ns base j ∈ used := by
  obtain ⟨k, hk1, hk2⟩ := exists_free_cand used ns base
  obtain ⟨i, -, h2, h3, h4⟩ :=
    findFreeAux_spec used ns base (used.length + 1) 0 ⟨k, Nat.zero_le k, by omega, hk2⟩
  exact ⟨i, h2, h3, fun j hj => h4 j (Nat.zero_le j) hj⟩

theorem findFreeKey_not_mem (used : List (List Char)) (ns base : List Char) :
    findFreeKey used ns base ∉ used := by
  obtain ⟨i, h1, h2, -⟩ := findFreeKey_spec used ns base
  rw [h1]
  exact h2

theorem findFreeKey_of_free (used : List (List Char)) (ns base : List Char)
    (h : candAt ns base 0 ∉ used) : findFreeKey used ns base = candAt ns base 0 := by
  have hc : used.contains (candAt ns base 0) = false := by
    rw [← Bool.not_eq_true]
    simpa using h
  unfold findFreeKey findFreeAux
  rw [hc]
  simp

/-! ## Entry-map lemmas (C1, C3) -/

theorem emapUpdate_keys (k : List Char) (f : KeyEntry → KeyEntry) :
    ∀ m : List (List Char × KeyEntry), (emapUpdate k f m).map Prod.fst = m.map Prod.fst := by
  intro m
  induction m with
  | nil => rfl
  | cons kv rest ih =>
    obtain ⟨k', e⟩ := kv
    unfold emapUpdate
    by_cases h : k = k'
    · rw [if_pos h]
      simp
    · rw [if_neg h]
      simp [ih]

theorem emapHas_iff (k : List Char) :
    ∀ m : List (List Char × KeyEntry), emapHas k m = true ↔ k ∈ m.map Prod.fst := by
  intro m
  induction m with
  | nil => simp [emapHas, emapLookup]
  | cons kv rest ih =>
    obtain ⟨k', e⟩ := kv
    unfold emapHas emapLookup
    by_cases h : k = k'
    · rw [if_pos h]
      subst h
      refine ⟨fun _ => List.mem_cons_self _ _, fun _ => rfl⟩
    · rw [if_neg h]
      rw [show (emapLookup k rest).isSome = emapHas k rest from rfl, ih]
      constructor
      · intro hm
        exact List.mem_cons_of_mem _ hm
      · intro hm
        rcases List.mem_cons.mp hm with h1 | h1
        · exact absurd h1 h
        · exact h1

theorem emapLookup_append_left (k : List Char) :
    ∀ (a b : List (List Char × KeyEntry)), k ∈ a.map Prod.fst →
      emapLookup k (a ++ b) = emapLookup k a := by
  intro a
  induction a with
  | nil => intro b h; simp at h
  | cons kv rest ih =>
    obtain ⟨k', e⟩ := kv
    intro b h
    simp only [List.cons_append]
    unfold emapLookup
    by_cases hk : k = k'
    · rw [if_pos hk, if_pos hk]
    · rw [if_neg hk, if_neg hk]
      apply ih
      simp only [List.map_cons, List.mem_cons] at h
      rcases h with h | h
      · exact absurd h hk
      · exact h

theorem foldl_addUsage_keys_nodup (placeholder : List Char) :
    ∀ (us : List KeyUsageRec) (m : List (List Char × KeyEntry)),
      (m.map Prod.fst).Nodup →
      ((us.foldl (addUsageStep placeholder) m).map Prod.fst).Nodup := by
  intro us
  induction us with
  | nil => intro m hm; exact hm
  | cons u rest ih =>
    intro m hm
    simp only [List.foldl_cons]
    apply ih
    unfold addUsageStep
    by_cases h : emapHas u.key m = true
    · rw [if_pos h, emapUpdate_keys]
      exact hm
    · rw [if_neg h, emapUpdate_keys]
      have hnot : u.key ∉ m.map Prod.fst := fun hmem => h ((emapHas_iff u.key m).mpr hmem)
      simp only [List.map_append, List.map_cons, List.map_nil]
      rw [List.nodup_append]
      refine ⟨hm, by simp, ?_⟩
      intro k hk hke
      rw [List.mem_singleton.mp hke] at hk
      exact hnot hk

theorem buildExistingKeys_nodup (placeholder : List Char) (us : List KeyUsageRec) :
    ((buildExistingKeys placeholder us).map Prod.fst).Nodup :=
  foldl_addUsage_keys_nodup placeholder us [] List.nodup_nil

theorem foldl_addOccur_inv (nsFlag : Bool) (names : List (List Char)) :
    ∀ (rs : List StringOccurrence) (m : List (List Char × KeyEntry)),
      (m.map Prod.fst).Nodup → (∀ k ∈ m.map Prod.fst, k ∉ names) →
      (((rs.foldl (addOccurStep nsFlag names) m).map Prod.fst).Nodup ∧
        ∀ k ∈ (rs.foldl (addOccurStep nsFlag names) m).map Prod.fst, k ∉ names) := by
  intro rs
  induction rs with
  | nil => intro m h1 h2; exact ⟨h1, h2⟩
  | cons r rest ih =>
    intro m h1 h2
    simp only [List.foldl_cons]
    have hfree := findFreeKey_not_mem (names ++ m.map Prod.fst)
      (if nsFlag then getNamespaceFromPath r.file else []) (generateKey r.value)
    rw [List.mem_append] at hfree
    push_neg at hfree
    obtain ⟨hfn, hfm⟩ := hfree
    have hstep : (addOccurStep nsFlag names m r).map Prod.fst =
        m.map Prod.fst ++ [findFreeKey (names ++ m.map Prod.fst)
          (if nsFlag then getNamespaceFromPath r.file else []) (generateKey r.value)] := by
      simp only [addOccurStep]
      rw [if_neg (fun hh => hfm ((emapHas_iff _ m).mp hh)), emapUpdate_keys]
      simp
    apply ih
    · rw [hstep, List.nodup_append]
      refine ⟨h1, by simp, ?_⟩
      intro k hk hke
      rw [List.mem_singleton.mp hke] at hk
      exact hfm hk
    · rw [hstep]
      intro k hk
      rcases List.mem_append.mp hk with hk | hk
      · exact h2 k hk
      · rw [List.mem_singleton.mp hk]
        exact hfn

theorem buildNewKeys_inv (nsFlag : Bool) (names : List (List Char))
    (rs : List StringOccurrence) :
    (((buildNewKeys nsFlag names rs).map Prod.fst).Nodup ∧
      ∀ k ∈ (buildNewKeys nsFlag names rs).map Prod.fst, k ∉ names) :=
  foldl_addOccur_inv nsFlag names rs [] List.nodup_nil (by simp)

theorem foldl_emapSet_fresh :
    ∀ (l m : List (List Char × KeyEntry)),
      ((m.map Prod.fst ++ l.map Prod.fst)).Nodup →
      (l.foldl (fun m kv => emapSet kv.1 kv.2 m) m) = m ++ l := by
  intro l
  induction l with
  | nil => intro m hm; simp
  | cons kv rest ih =>
    obtain ⟨k, e⟩ := kv
    intro m hm
    simp only [List.foldl_cons]
    have hk : k ∉ m.map Prod.fst := by
      simp only [List.map_cons, List.nodup_append] at hm
      intro hmem
      exact hm.2.2 hmem (List.mem_cons_self k _)
    have hset : emapSet k e m = m ++ [(k, e)] := by
      unfold emapSet
      rw [if_neg (fun hh => hk ((emapHas_iff k m).mp hh))]
    rw [hset, ih (m ++ [(k, e)]) (by simpa using hm), List.append_assoc]
    simp

theorem emapUnion_eq_append (a b : List (List Char × KeyEntry))
    (h : ((a ++ b).map Prod.fst).Nodup) : emapUnion a b = a ++ b := by
  unfold emapUnion
  have := foldl_emapSet_fresh (a ++ b) [] (by simpa using h)
  simpa using this

theorem generateCompleteKeys_eq_append (nsFlag : Bool) (placeholder : List Char)
    (usedKeys : List KeyUsageRec) (results : List StringOccurrence) :
    generateCompleteKeys nsFlag placeholder usedKeys results =
      buildExistingKeys placeholder usedKeys ++
        buildNewKeys nsFlag ((buildExistingKeys placeholder usedKeys).map Prod.fst) results ∧
    ((generateCompleteKeys nsFlag placeholder usedKeys results).map Prod.fst).Nodup := by
  have hex := buildExistingKeys_nodup placeholder usedKeys
  have hnew := buildNewKeys_inv nsFlag
    ((buildExistingKeys placeholder usedKeys).map Prod.fst) results
  have hnd : (((buildExistingKeys placeholder usedKeys ++
      buildNewKeys nsFlag ((buildExistingKeys placeholder usedKeys).map Prod.fst) results)).map
        Prod.fst).Nodup := by
    rw [List.map_append, List.nodup_append]
    exact ⟨hex, hnew.1, fun k hk hk2 => hnew.2 k hk2 hk⟩
  have heq : generateCompleteKeys nsFlag placeholder usedKeys results =
      buildExistingKeys placeholder usedKeys ++
        buildNewKeys nsFlag ((buildExistingKeys placeholder usedKeys).map Prod.fst) results := by
    unfold generateCompleteKeys
    exact emapUnion_eq_append _ _ hnd
  exact ⟨heq, heq ▸ hnd⟩

/-! ## C1 -/

/-- C1 (counterexample): when a Generate candidate key coincides exactly
with an Extract key, the resulting key set does keep the Extract entry
(placeholder value, source `existing`), but its locations contain **only**
the Extract call sites — the Generate occurrence is re-keyed to
`common.hello_1` and its location is not merged into the Extract entry,
contradicting the claim that locations from both are retained. -/
theorem C1_counterexample_locations_not_merged :
    nsJoin (getNamespaceFromPath "index.js".toList) (generateKey "hello".toList)
      = "common.hello".toList ∧
    emapLookup "common.hello".toList (generateCompleteKeys true [] c1UsedKeys c1Occurrences)
      = some ⟨[], .existing, [⟨"a.js".toList, 1, none⟩]⟩ ∧
    (⟨"index.js".toList, 2, some "hello".toList⟩ : Loc) ∉
      ([⟨"a.js".toList, 1, none⟩] : List Loc) ∧
    emapLookup "common.hello_1".toList (generateCompleteKeys true [] c1UsedKeys c1Occurrences)
      = some ⟨"hello".toList, .hardcoded, [⟨"index.js".toList, 2, some "hello".toList⟩]⟩ := by
  decide

/-- C1 (amended): the suffix loop of the Merge operation prevents any
exact coincidence between an Extract key and a finally-assigned Generate
key, so for every Extract key the merged key set contains exactly the
Extract entry — its placeholder value, its `existing` source and its own
call-site locations, with no occurrence locations from Generate merged
in; a colliding Generate candidate is re-keyed with a numeric suffix
instead. -/
theorem C1_extract_entry_wins_by_disjointness :
    ∀ (nsFlag : Bool) (placeholder : List Char) (usedKeys : List KeyUsageRec)
      (results : List StringOccurrence) (k : List Char),
      k ∈ (buildExistingKeys placeholder usedKeys).map Prod.fst →
      (k ∉ (buildNewKeys nsFlag ((buildExistingKeys placeholder usedKeys).map Prod.fst)
          results).map Prod.fst ∧
        emapLookup k (generateCompleteKeys nsFlag placeholder usedKeys results)
          = emapLookup k (buildExistingKeys placeholder usedKeys)) := by
  intro nsFlag placeholder usedKeys results k hk
  obtain ⟨heq, -⟩ := generateCompleteKeys_eq_append nsFlag placeholder usedKeys results
  constructor
  · intro hk2
    exact (buildNewKeys_inv nsFlag ((buildExistingKeys placeholder usedKeys).map Prod.fst)
      results).2 k hk2 hk
  · rw [heq]
    exact emapLookup_append_left k _ _ hk

/-- C1 (witness): concrete application at the collision scenario. -/
theorem C1_extract_entry_wins_witness :
    "common.hello".toList ∉
      (buildNewKeys true ((buildExistingKeys [] c1UsedKeys).map Prod.fst)
        c1Occurrences).map Prod.fst ∧
    emapLookup "common.hello".toList (generateCompleteKeys true [] c1UsedKeys c1Occurrences)
      = emapLookup "common.hello".toList (buildExistingKeys [] c1UsedKeys) :=
  C1_extract_entry_wins_by_disjointness true [] c1UsedKeys c1Occurrences
    "common.hello".toList (by decide)

/-! ## C3 -/

theorem genAssignAux_spec :
    ∀ (results : List StringOccurrence) (nsFlag : Bool) (used : List (List Char)),
      ((genAssignAux nsFlag used results).map Prod.fst).Nodup ∧
      ∀ k ∈ (genAssignAux nsFlag used results).map Prod.fst, k ∉ used := by
  intro results
  induction results with
  | nil =>
    intro nsFlag used
    exact ⟨List.nodup_nil, by intro k hk; simp [genAssignAux] at hk⟩
  | cons r rest ih =>
    intro nsFlag used
    simp only [genAssignAux, List.map_cons]
    constructor
    · rw [List.nodup_cons]
      refine ⟨?_, (ih nsFlag _).1⟩
      intro hmem
      exact ((ih nsFlag _).2 _ hmem) (by simp)
    · intro k hk
      rcases List.mem_cons.mp hk with rfl | hk2
      · exact findFreeKey_not_mem used _ _
      · intro hku
        exact (ih nsFlag _).2 k hk2 (by simp [hku])

/-- C3: every full key assigned within one generation run is globally
unique — both in Generate (`generateI18nFile`) and in Merge's generation
step (`generateComplete`) the assigned key lists are duplicate-free; the
suffix loop returns the unsuffixed candidate exactly when it is
unclaimed, and otherwise `base_i` for the least claimed-free `i` (so the
earlier an occurrence comes in the input sequence, the earlier candidate
it claims). -/
theorem C3_assigned_full_keys_unique :
    (∀ (nsFlag : Bool) (results : List StringOccurrence),
      ((genAssign nsFlag results).map Prod.fst).Nodup) ∧
    (∀ (nsFlag : Bool) (placeholder : List Char) (usedKeys : List KeyUsageRec)
      (results : List StringOccurrence),
      ((generateCompleteKeys nsFlag placeholder usedKeys results).map Prod.fst).Nodup) ∧
    (∀ (used : List (List Char)) (ns base : List Char),
      ∃ i, findFreeKey used ns base = candAt ns base i ∧ candAt ns base i ∉ used ∧
        ∀ j < i, candAt ns base j ∈ used) ∧
    (∀ (used : List (List Char)) (ns base : List Char),
      candAt ns base 0 ∉ used → findFreeKey used ns base = candAt ns base 0) := by
  refine ⟨?_, ?_, findFreeKey_spec, findFreeKey_of_free⟩
  · intro nsFlag results
    exact (genAssignAux_spec results nsFlag []).1
  · intro nsFlag placeholder usedKeys results
    exact (generateCompleteKeys_eq_append nsFlag placeholder usedKeys results).2

/-- C3 (witness): two identical occurrences of `"hello"` in the same file
get the distinct keys `common.hello` and `common.hello_1`; the loop
hypothesis instance is discharged at a concrete unclaimed candidate. -/
theorem C3_assigned_full_keys_witness :
    findFreeKey ["common.hello".toList] "common".toList "hello".toList
      = candAt "common".toList "hello".toList 1 ∧
    findFreeKey [] "common".toList "hello".toList
      = candAt "common".toList "hello".toList 0 ∧
    (genAssign true
      [⟨"index.js".toList, 1, 0, "hello".toList, [], []⟩,
       ⟨"index.js".toList, 2, 0, "hello".toList, [], []⟩]).map Prod.fst
      = ["common.hello".toList, "common.hello_1".toList] :=
  ⟨by decide,
   C3_assigned_full_keys_unique.2.2.2 [] "common".toList "hello".toList (by decide),
   by decide⟩

/-! ## C2 -/

theorem lookupKey_setKey_self (k : List Char) (v : JVal) :
    ∀ o : JObj, lookupKey k (setKey k v o) = some v
  | .nil => by simp [setKey, lookupKey]
  | .cons k' v' rest => by
    unfold setKey
    by_cases h : k = k'
    · rw [if_pos h]
      unfold lookupKey
      rw [if_pos h]
    · rw [if_neg h]
      unfold lookupKey
      rw [if_neg h]
      exact lookupKey_setKey_self k v rest

theorem lookupKey_setKey_other (k k' : List Char) (v : JVal) (h : k' ≠ k) :
    ∀ o : JObj, lookupKey k' (setKey k v o) = lookupKey k' o
  | .nil => by simp [setKey, lookupKey, h]
  | .cons k2 v2 rest => by
    unfold setKey
    by_cases h2 : k = k2
    · rw [if_pos h2]
      unfold lookupKey
      rw [if_neg (h2 ▸ h), if_neg (h2 ▸ h)]
    · rw [if_neg h2]
      unfold lookupKey
      by_cases h3 : k' = k2
      · rw [if_pos h3, if_pos h3]
      · rw [if_neg h3, if_neg h3]
        exact lookupKey_setKey_other k k' v h rest

/-- `insertC` on a non-empty path only writes the head key of the path. -/
theorem insertC_lookup_other (q : List Char) (rest : List (List Char))
    (v : List Char) (o : JObj) (k : List Char) (h : k ≠ q) :
    lookupKey k (insertC (q :: rest) v o) = lookupKey k o := by
  cases rest with
  | nil =>
    unfold insertC
    exact lookupKey_setKey_other q k (.str v) h o
  | cons r rs =>
    cases hl : lookupKey q o with
    | none =>
      simp only [insertC, hl]
      exact lookupKey_setKey_other q k _ h o
    | some jv =>
      cases jv with
      | str s =>
        by_cases hs : s.isEmpty = true
        · simp only [insertC, hl, hs, if_true]
          exact lookupKey_setKey_other q k _ h o
        · simp only [insertC, hl]
          rw [if_neg hs]
          exact lookupKey_setKey_other q k _ h o
      | obj sub =>
        simp only [insertC, hl]
        exact lookupKey_setKey_other q k _ h o

/-- C2 (counterexample): building the extract tree from keys
`["a.b", "a"]` (in that order, with the default empty placeholder) first
creates the leaf `a.b`, then the shorter key `a` **overwrites the whole
branch**: the resulting tree is `{a: ""}` and the leaf once reachable at
`a.b` is gone — a structural merge silently lost an existing value,
contradicting the claimed preservation invariant. -/
theorem C2_counterexample_branch_overwritten :
    treeKeys (extractBuild ["a.b".toList] []) = ["a.b".toList] ∧
    extractBuild ["a.b".toList, "a".toList] [] = .cons "a".toList (.str []) .nil ∧
    treeKeys (extractBuild ["a.b".toList, "a".toList] []) = ["a".toList] := by
  decide

/-- C2 (amended): the leaf-to-branch direction of the preservation rule
holds for **non-empty** leaf values: when a position holding a non-empty
string leaf must become a branch for a deeper key, the old value is
preserved under the sentinel child `_value`.  (An empty-string leaf is
falsy, so the `!current[p]` guard replaces it by a plain branch and the
value is discarded; and in the converse direction a branch reached later
by a shorter key is silently overwritten, as the counterexample shows.) -/
theorem C2_nonempty_leaf_preserved_under_sentinel :
    ∀ (p q : List Char) (rest : List (List Char)) (v s : List Char) (o : JObj),
      lookupKey p o = some (.str s) → s ≠ [] → q ≠ valueSentinel →
      ∃ sub : JObj, lookupKey p (insertC (p :: q :: rest) v o) = some (.obj sub) ∧
        lookupKey valueSentinel sub = some (.str s) := by
  intro p q rest v s o hp hs hq
  have hse : s.isEmpty = false := by
    cases s with
    | nil => exact absurd rfl hs
    | cons c cs => rfl
  refine ⟨insertC (q :: rest) v (.cons valueSentinel (.str s) .nil), ?_, ?_⟩
  · simp only [insertC, hp, hse, Bool.false_eq_true, if_false]
    exact lookupKey_setKey_self p _ o
  · rw [insertC_lookup_other q rest v _ valueSentinel (fun h2 => hq h2.symm)]
    simp [lookupKey]

/-- C2 (witness): inserting the deeper key `a.b` over the non-empty leaf
`{a: "x"}` keeps `"x"` reachable at `a._value`. -/
theorem C2_nonempty_leaf_preserved_witness :
    ∃ sub : JObj,
      lookupKey "a".toList
        (insertC ["a".toList, "b".toList] "y".toList
          (.cons "a".toList (.str "x".toList) .nil)) = some (.obj sub) ∧
      lookupKey valueSentinel sub = some (.str "x".toList) :=
  C2_nonempty_leaf_preserved_under_sentinel "a".toList "b".toList [] "y".toList
    "x".toList (.cons "a".toList (.str "x".toList) .nil) (by decide) (by decide) (by decide)

/-! ## C8: split/join lemmas -/

theorem contains_cons_false {c : Char} {cs : List Char} {a : Char}
    (h : (c :: cs).contains a = false) : (c = a → False) ∧ cs.contains a = false := by
  simp only [List.contains_cons, Bool.or_eq_false_iff] at h
  refine ⟨fun he => ?_, h.2⟩
  have := h.1
  rw [he] at this
  simp at this

theorem splitDotsAux_nil (acc : List Char) : splitDotsAux [] acc = [acc.reverse] := rfl

theorem splitDotsAux_cons (c : Char) (cs acc : List Char) :
    splitDotsAux (c :: cs) acc =
      if c = '.' then acc.reverse :: splitDotsAux cs [] else splitDotsAux cs (c :: acc) := rfl

theorem splitDotsAux_no_dot :
    ∀ (l : List Char), l.contains '.' = false →
      ∀ acc, splitDotsAux l acc = [acc.reverse ++ l] := by
  intro l
  induction l with
  | nil => intro h acc; simp [splitDotsAux]
  | cons c cs ih =>
    intro h acc
    obtain ⟨hc, hcs⟩ := contains_cons_false h
    rw [splitDotsAux_cons, if_neg (fun he => hc (by rw [he])), ih hcs (c :: acc)]
    simp

theorem splitDotsAux_append_dot :
    ∀ (l₁ : List Char), l₁.contains '.' = false → ∀ (l₂ : List Char) (acc : List Char),
      splitDotsAux (l₁ ++ '.' :: l₂) acc = (acc.reverse ++ l₁) :: splitDotsAux l₂ [] := by
  intro l₁
  induction l₁ with
  | nil =>
    intro h l₂ acc
    simp only [List.nil_append, List.append_nil]
    rw [splitDotsAux_cons, if_pos rfl]
  | cons c cs ih =>
    intro h l₂ acc
    obtain ⟨hc, hcs⟩ := contains_cons_false h
    simp only [List.cons_append]
    rw [splitDotsAux_cons, if_neg (fun he => hc (by rw [he])), ih hcs l₂ (c :: acc)]
    simp

theorem joinDots_cons_cons (p q : List Char) (ps : List (List Char)) :
    joinDots (p :: q :: ps) = p ++ '.' :: joinDots (q :: ps) := rfl

theorem split_join :
    ∀ (path : List (List Char)), path ≠ [] →
      (∀ seg ∈ path, seg.contains '.' = false) →
      splitDots (joinDots path) = path := by
  intro path
  induction path with
  | nil => intro hne; cases hne rfl
  | cons p ps ih =>
    intro hne h
    cases ps with
    | nil =>
      unfold splitDots
      rw [show joinDots [p] = p from rfl]
      rw [splitDotsAux_no_dot p (h p (List.mem_cons_self p _)) []]
      simp
    | cons q ps' =>
      rw [joinDots_cons_cons]
      unfold splitDots
      rw [splitDotsAux_append_dot p (h p (List.mem_cons_self p _)) (joinDots (q :: ps')) []]
      simp only [List.reverse_nil, List.nil_append]
      congr 1
      exact ih (List.cons_ne_nil q ps') (fun seg hs => h seg (List.mem_cons_of_mem p hs))

theorem mkFull_nil_left (k : List Char) : mkFull [] k = k := rfl

theorem mkFull_of_ne_nil (pre k : List Char) (h : pre ≠ []) :
    mkFull pre k = pre ++ '.' :: k := by
  unfold mkFull
  rw [if_neg]
  simpa using h

theorem foldl_mkFull_join :
    ∀ (path : List (List Char)) (k : List Char), k ≠ [] →
      List.foldl mkFull k path = joinDots (k :: path) := by
  intro path
  induction path with
  | nil => intro k hk; rfl
  | cons q path' ih =>
    intro k hk
    simp only [List.foldl_cons]
    rw [mkFull_of_ne_nil k q hk, ih (k ++ '.' :: q) (by simp)]
    cases path' with
    | nil => rfl
    | cons r rs =>
      rw [joinDots_cons_cons, joinDots_cons_cons, joinDots_cons_cons]
      simp [List.append_assoc]

/-! ## C8: flattening vs segment paths -/

theorem wfObj_cons_facts (k : List Char) (v : JVal) (rest : JObj)
    (h : wfObj (.cons k v rest) = true) :
    k.isEmpty = false ∧ k.contains '.' = false ∧ objHasKey k rest = false ∧
      wfVal v = true ∧ wfObj rest = true := by
  simp only [wfObj, Bool.and_eq_true, Bool.not_eq_true'] at h
  exact ⟨h.1.1.1.1, h.1.1.1.2, h.1.1.2, h.1.2, h.2⟩

theorem wfVal_obj_facts (es : JObj) (h : wfVal (.obj es) = true) :
    jobjIsNil es = false ∧ wfObj es = true := by
  simp only [wfVal, Bool.and_eq_true, Bool.not_eq_true'] at h
  exact h

theorem lookupKey_cons (k2 k : List Char) (v : JVal) (rest : JObj) :
    lookupKey k2 (.cons k v rest) = if k2 = k then some v else lookupKey k2 rest := rfl

theorem objHasKey_cons (k2 k : List Char) (v : JVal) (rest : JObj) :
    objHasKey k2 (.cons k v rest) = true ↔ k2 = k ∨ objHasKey k2 rest = true := by
  unfold objHasKey
  rw [lookupKey_cons]
  by_cases h : k2 = k
  · rw [if_pos h]
    simp [h]
  · rw [if_neg h]
    simp [h]

mutual
theorem flattenVal_eq_seg : ∀ (v : JVal) (full : List Char),
    flattenVal full v = (flattenSegVal v).map (fun pr => (List.foldl mkFull full pr.1, pr.2))
  | .str s, full => by simp [flattenVal, flattenSegVal]
  | .obj es, full => by
    simp only [flattenVal, flattenSegVal]
    exact flattenObj_eq_seg es full
theorem flattenObj_eq_seg : ∀ (es : JObj) (pre : List Char),
    flattenObj pre es = (flattenSegObj es).map (fun pr => (List.foldl mkFull pre pr.1, pr.2))
  | .nil, pre => by simp [flattenObj, flattenSegObj]
  | .cons k v rest, pre => by
    simp only [flattenObj, flattenSegObj, List.map_append, List.map_map]
    congr 1
    · rw [flattenVal_eq_seg v (mkFull pre k)]
      apply List.map_congr_left
      intro pr hpr
      rfl
    · exact flattenObj_eq_seg rest pre
end

theorem flattenSegObj_path_ne_nil :
    ∀ (es : JObj) (pr : List (List Char) × List Char), pr ∈ flattenSegObj es → pr.1 ≠ []
  | .nil, pr, h => by simp [flattenSegObj] at h
  | .cons k v rest, pr, h => by
    simp only [flattenSegObj, List.mem_append, List.mem_map] at h
    rcases h with ⟨q, hq, rfl⟩ | h2
    · simp
    · exact flattenSegObj_path_ne_nil rest pr h2

mutual
theorem wfVal_seg_facts : ∀ (v : JVal), wfVal v = true →
    ∀ pr ∈ flattenSegVal v, ∀ seg ∈ pr.1, seg.isEmpty = false ∧ seg.contains '.' = false
  | .str s, _, pr, hpr, seg, hseg => by
    simp only [flattenSegVal, List.mem_singleton] at hpr
    rw [hpr] at hseg
    simp at hseg
  | .obj es, hw, pr, hpr, seg, hseg => by
    obtain ⟨-, hwo⟩ := wfVal_obj_facts es hw
    exact wfObj_seg_facts es hwo pr (by simpa [flattenSegVal] using hpr) seg hseg
theorem wfObj_seg_facts : ∀ (es : JObj), wfObj es = true →
    ∀ pr ∈ flattenSegObj es, ∀ seg ∈ pr.1, seg.isEmpty = false ∧ seg.contains '.' = false
  | .nil, _, pr, hpr, seg, hseg => by simp [flattenSegObj] at hpr
  | .cons k v rest, hw, pr, hpr, seg, hseg => by
    obtain ⟨hk1, hk2, -, hwv, hwrest⟩ := wfObj_cons_facts k v rest hw
    simp only [flattenSegObj, List.mem_append, List.mem_map] at hpr
    rcases hpr with ⟨q, hq, rfl⟩ | h2
    · simp only at hseg
      rcases List.mem_cons.mp hseg with rfl | hseg2
      · exact ⟨hk1, hk2⟩
      · exact wfVal_seg_facts v hwv q hq seg hseg2
    · exact wfObj_seg_facts rest hwrest pr h2 seg hseg
end

mutual
theorem flattenSegVal_ne_nil : ∀ (v : JVal), wfVal v = true → flattenSegVal v ≠ []
  | .str s, _ => by simp [flattenSegVal]
  | .obj es, hw => by
    obtain ⟨h1, h2⟩ := wfVal_obj_facts es hw
    simp only [flattenSegVal]
    exact flattenSegObj_ne_nil es h2 h1
theorem flattenSegObj_ne_nil : ∀ (es : JObj), wfObj es = true → jobjIsNil es = false →
    flattenSegObj es ≠ []
  | .nil, _, hnil => by simp [jobjIsNil] at hnil
  | .cons k v rest, hw, _ => by
    obtain ⟨-, -, -, hwv, -⟩ := wfObj_cons_facts k v rest hw
    simp only [flattenSegObj]
    intro hc
    obtain ⟨hl, -⟩ := List.append_eq_nil.mp hc
    exact flattenSegVal_ne_nil v hwv (List.map_eq_nil_iff.mp hl)
end

/-! ## C8: object concatenation and setKey algebra -/

theorem jobjConcat_nil_right : ∀ o : JObj, jobjConcat o .nil = o
  | .nil => rfl
  | .cons k v rest => by
    simp only [jobjConcat]
    rw [jobjConcat_nil_right rest]

theorem jobjConcat_assoc : ∀ a b c : JObj,
    jobjConcat (jobjConcat a b) c = jobjConcat a (jobjConcat b c)
  | .nil, _, _ => rfl
  | .cons k v rest, b, c => by
    simp only [jobjConcat]
    rw [jobjConcat_assoc rest b c]

theorem lookupKey_concat_left (k : List Char) (jv : JVal) :
    ∀ (a b : JObj), lookupKey k a = some jv → lookupKey k (jobjConcat a b) = some jv
  | .nil, b, h => by cases h
  | .cons k' v' rest, b, h => by
    simp only [jobjConcat]
    rw [lookupKey_cons] at h ⊢
    by_cases he : k = k'
    · rwa [if_pos he] at h ⊢
    · rw [if_neg he] at h ⊢
      exact lookupKey_concat_left k jv rest b h

theorem lookupKey_concat_right (k : List Char) :
    ∀ (a b : JObj), lookupKey k a = none → lookupKey k (jobjConcat a b) = lookupKey k b
  | .nil, b, _ => rfl
  | .cons k' v' rest, b, h => by
    simp only [jobjConcat]
    rw [lookupKey_cons] at h ⊢
    by_cases he : k = k'
    · rw [if_pos he] at h
      cases h
    · rw [if_neg he] at h ⊢
      exact lookupKey_concat_right k rest b h

theorem setKey_fresh (k : List Char) (v : JVal) :
    ∀ o : JObj, lookupKey k o = none → setKey k v o = jobjConcat o (.cons k v .nil)
  | .nil, _ => rfl
  | .cons k' v' rest, h => by
    rw [lookupKey_cons] at h
    by_cases he : k = k'
    · rw [if_pos he] at h
      cases h
    · rw [if_neg he] at h
      simp only [setKey, jobjConcat]
      rw [if_neg he, setKey_fresh k v rest h]

theorem setKey_setKey (k : List Char) (v w : JVal) :
    ∀ o : JObj, setKey k v (setKey k w o) = setKey k v o
  | .nil => by simp [setKey]
  | .cons k' v' rest => by
    by_cases he : k = k'
    · simp only [setKey, if_pos he]
    · simp only [setKey, if_neg he]
      rw [setKey_setKey k v w rest]

theorem setKey_eq_of_lookup (k : List Char) (v : JVal) :
    ∀ o : JObj, lookupKey k o = some v → setKey k v o = o
  | .nil, h => by cases h
  | .cons k' v' rest, h => by
    rw [lookupKey_cons] at h
    simp only [setKey]
    by_cases he : k = k'
    · rw [if_pos he] at h
      rw [if_pos he]
      injection h with h
      rw [← h]
    · rw [if_neg he] at h
      rw [if_neg he, setKey_eq_of_lookup k v rest h]

/-! ## C8: insertion commutation lemmas -/

theorem insertSegAll_append (l₁ : List (List (List Char) × List Char)) :
    ∀ (l₂ : List (List (List Char) × List Char)) (o : JObj),
      insertSegAll (l₁ ++ l₂) o =
        match insertSegAll l₁ o with
        | none => none
        | some o' => insertSegAll l₂ o' := by
  induction l₁ with
  | nil => intro l₂ o; rfl
  | cons pv l₁' ih =>
    intro l₂ o
    obtain ⟨p, v⟩ := pv
    simp only [List.cons_append, insertSegAll]
    cases insertG p v o with
    | none => rfl
    | some o' => exact ih l₂ o'

theorem insertG_cons_obj (k : List Char) (p : List (List Char)) (v : List Char)
    (o sub : JObj) (hp : p ≠ []) (h : lookupKey k o = some (.obj sub)) :
    insertG (k :: p) v o = (insertG p v sub).map (fun sub' => setKey k (.obj sub') o) := by
  cases p with
  | nil => cases hp rfl
  | cons q rest => simp only [insertG, h]

theorem insertG_cons_none (k : List Char) (p : List (List Char)) (v : List Char)
    (o : JObj) (hp : p ≠ []) (h : lookupKey k o = none) :
    insertG (k :: p) v o = (insertG p v .nil).map (fun sub => setKey k (.obj sub) o) := by
  cases p with
  | nil => cases hp rfl
  | cons q rest => simp only [insertG, h]

theorem insertSegAll_cons_key (l : List (List (List Char) × List Char)) :
    ∀ (k : List Char) (o sub : JObj),
      (∀ pr ∈ l, pr.1 ≠ []) → lookupKey k o = some (.obj sub) →
      insertSegAll (l.map (fun pr => (k :: pr.1, pr.2))) o
        = (insertSegAll l sub).map (fun sub' => setKey k (.obj sub') o) := by
  induction l with
  | nil =>
    intro k o sub hpaths h
    simp only [List.map_nil, insertSegAll, Option.map_some']
    rw [setKey_eq_of_lookup k (.obj sub) o h]
  | cons pv l' ih =>
    intro k o sub hpaths h
    obtain ⟨p, v⟩ := pv
    have hp : p ≠ [] := hpaths (p, v) (List.mem_cons_self _ _)
    simp only [List.map_cons, insertSegAll]
    rw [insertG_cons_obj k p v o sub hp h]
    cases hig : insertG p v sub with
    | none => simp [hig]
    | some sub₁ =>
      simp only [Option.map_some']
      rw [ih k (setKey k (.obj sub₁) o) sub₁
        (fun pr hpr => hpaths pr (List.mem_cons_of_mem _ hpr))
        (lookupKey_setKey_self k (.obj sub₁) o)]
      cases insertSegAll l' sub₁ with
      | none => rfl
      | some s' =>
        simp only [Option.map_some']
        rw [setKey_setKey]

theorem insertSegAll_cons_key_new (l : List (List (List Char) × List Char))
    (k : List Char) (o : JObj) (hne : l ≠ []) (hpaths : ∀ pr ∈ l, pr.1 ≠ [])
    (h : lookupKey k o = none) :
    insertSegAll (l.map (fun pr => (k :: pr.1, pr.2))) o
      = (insertSegAll l .nil).map (fun sub => setKey k (.obj sub) o) := by
  cases l with
  | nil => cases hne rfl
  | cons pv l' =>
    obtain ⟨p, v⟩ := pv
    have hp : p ≠ [] := hpaths (p, v) (List.mem_cons_self _ _)
    simp only [List.map_cons, insertSegAll]
    rw [insertG_cons_none k p v o hp h]
    cases hig : insertG p v .nil with
    | none => simp [hig]
    | some sub₁ =>
      show insertSegAll (l'.map (fun pr => (k :: pr.1, pr.2))) (setKey k (.obj sub₁) o)
        = Option.map (fun sub => setKey k (.obj sub) o) (insertSegAll l' sub₁)
      rw [insertSegAll_cons_key l' k (setKey k (.obj sub₁) o) sub₁
        (fun pr hpr => hpaths pr (List.mem_cons_of_mem _ hpr))
        (lookupKey_setKey_self k (.obj sub₁) o)]
      cases insertSegAll l' sub₁ with
      | none => rfl
      | some s' =>
        simp only [Option.map_some']
        rw [setKey_setKey]

/-! ## C8: the round-trip -/

mutual
theorem roundtripVal : ∀ (v : JVal), wfVal v = true → ∀ (k : List Char) (o : JObj),
    lookupKey k o = none →
    insertSegAll ((flattenSegVal v).map (fun pr => (k :: pr.1, pr.2))) o
      = some (jobjConcat o (.cons k v .nil))
  | .str s, _, k, o, ho => by
    simp only [flattenSegVal, List.map_cons, List.map_nil, insertSegAll, insertG]
    rw [setKey_fresh k (.str s) o ho]
  | .obj es, hw, k, o, ho => by
    obtain ⟨hnil, hwo⟩ := wfVal_obj_facts es hw
    simp only [flattenSegVal]
    rw [insertSegAll_cons_key_new (flattenSegObj es) k o
      (flattenSegObj_ne_nil es hwo hnil)
      (fun pr hpr => flattenSegObj_path_ne_nil es pr hpr) ho]
    rw [roundtripObj es hwo .nil (fun k2 _ => rfl)]
    simp only [Option.map_some']
    rw [show jobjConcat JObj.nil es = es from rfl, setKey_fresh k (.obj es) o ho]
theorem roundtripObj : ∀ (es : JObj), wfObj es = true → ∀ (o : JObj),
    (∀ k2, objHasKey k2 es = true → lookupKey k2 o = none) →
    insertSegAll (flattenSegObj es) o = some (jobjConcat o es)
  | .nil, _, o, _ => by
    simp only [flattenSegObj, insertSegAll]
    rw [jobjConcat_nil_right]
  | .cons k v rest, hw, o, ho => by
    obtain ⟨hk1, hk2, hk3, hwv, hwrest⟩ := wfObj_cons_facts k v rest hw
    simp only [flattenSegObj]
    rw [insertSegAll_append]
    rw [roundtripVal v hwv k o
      (ho k ((objHasKey_cons k k v rest).mpr (Or.inl rfl)))]
    show insertSegAll (flattenSegObj rest) (jobjConcat o (.cons k v .nil))
      = some (jobjConcat o (.cons k v rest))
    rw [roundtripObj rest hwrest (jobjConcat o (.cons k v .nil)) (fun k2 h2 => by
      have hk2k : k2 ≠ k := by
        intro he
        rw [he] at h2
        rw [h2] at hk3
        cases hk3
      have ho2 : lookupKey k2 o = none :=
        ho k2 ((objHasKey_cons k2 k v rest).mpr (Or.inr h2))
      rw [lookupKey_concat_right k2 o _ ho2, lookupKey_cons, if_neg hk2k]
      rfl)]
    rw [jobjConcat_assoc]
    rfl
end

theorem nestAllG_eq_insertSegAll :
    ∀ (l : List (List (List Char) × List Char)) (o : JObj),
      (∀ pr ∈ l, splitDots (List.foldl mkFull [] pr.1) = pr.1) →
      nestAllG (l.map (fun pr => (List.foldl mkFull [] pr.1, pr.2))) o = insertSegAll l o := by
  intro l
  induction l with
  | nil => intro o h; rfl
  | cons pr l' ih =>
    intro o h
    obtain ⟨p, v⟩ := pr
    simp only [List.map_cons, nestAllG, insertSegAll]
    rw [h (p, v) (List.mem_cons_self _ _)]
    cases insertG p v o with
    | none => rfl
    | some o' => exact ih o' (fun q hq => h q (List.mem_cons_of_mem _ hq))

/-- C8: flattening a well-formed `TranslationTree` — every branch
non-empty, sibling keys distinct, every key a non-empty dot-free segment,
exactly the invariants of the trees the nested Generate branch builds
from `split(".")` segments — and re-nesting the flattened
(full key, value) pairs by splitting each full key on dots rebuilds the
very same tree (so in particular a tree equivalent up to key ordering). -/
theorem C8_flatten_nest_roundtrip :
    ∀ es : JObj, wfObj es = true → nestAllG (flattenObj [] es) .nil = some es := by
  intro es hw
  rw [flattenObj_eq_seg es []]
  rw [nestAllG_eq_insertSegAll (flattenSegObj es) .nil ?hsplit]
  · rw [roundtripObj es hw .nil (fun k2 _ => rfl)]
    rfl
  case hsplit =>
    intro pr hpr
    have hne := flattenSegObj_path_ne_nil es pr hpr
    have hsegs := wfObj_seg_facts es hw pr hpr
    cases hp : pr.1 with
    | nil => cases hne hp
    | cons s0 srest =>
      have h0 := hsegs s0 (by rw [hp]; exact List.mem_cons_self _ _)
      have h0ne : s0 ≠ [] := by
        intro he
        rw [he] at h0
        simp at h0
      simp only [List.foldl_cons, mkFull_nil_left]
      rw [foldl_mkFull_join srest s0 h0ne]
      refine split_join (s0 :: srest) (List.cons_ne_nil _ _) ?_
      intro seg hs
      exact (hsegs seg (by rw [hp]; exact hs)).2

/-- C8 (witness): the round trip on a concrete generated tree. -/
theorem C8_flatten_nest_roundtrip_witness :
    nestAllG (flattenObj [] c8Tree) .nil = some c8Tree :=
  C8_flatten_nest_roundtrip c8Tree (by decide)

end I18nFixer
